import Mathlib

/-!
Formal model of the pygame slideshow program (src/main.py): the content
catalog scan, the playback cursor, the hot-reload handler, and the four
transition algorithms (fade, slide, dissolve, zoom).  Filenames are modelled
as lists of characters, pixel frames as functions from coordinates to pixel
values, the step-count computation as exact rational arithmetic (exact at the
inputs used), and the fade-alpha computation as correctly rounded IEEE-754
double-precision arithmetic over exact rationals.
-/

/-- Lowercasing of a filename, modelling Python str.lower() on the
(ASCII) names compared by the slide scan (main.py lines 215 and 222). -/
def to_lower (n : List Char) : List Char := n.map Char.toLower

/-- Suffix test on character lists, modelling Python str.endswith
(main.py lines 215 and 222). -/
def ends_with (n s : List Char) : Bool := List.isSuffixOf s n

/-- Classification of a directory entry as an image slide by extension
(main.py line 215: file.lower().endswith(('.jpg', '.png'))). -/
def is_image_name (n : List Char) : Bool :=
  ends_with (to_lower n) (".jpg".toList) || ends_with (to_lower n) (".png".toList)

/-- Classification of a directory entry as a video slide by extension
(main.py line 222: file.lower().endswith('.mp4')). -/
def is_video_name (n : List Char) : Bool := ends_with (to_lower n) (".mp4".toList)

/-- One slide of the catalog, as appended by load_content
(main.py lines 221 and 227). -/
inductive SlideVal where
  | image (name : List Char)
  | video (name : List Char)
deriving DecidableEq

/-- One directory entry presented to load_content: its filename, and whether
the per-item load call (pygame.image.load for images, imageio.get_reader for
videos; main.py lines 217 and 225) succeeds on it. -/
structure Entry where
  name : List Char
  loadOk : Bool
deriving DecidableEq

/-- Lexicographic comparison of filenames by code point, the order Python's
sorted() puts the os.listdir strings in (main.py line 213). -/
def lex_le : List Char → List Char → Bool
  | [], _ => true
  | _ :: _, [] => false
  | a :: as, b :: bs => if a < b then true else if b < a then false else lex_le as bs

/-- Ordering of entries by filename, used to model sorted(os.listdir(...)). -/
def name_le (a b : Entry) : Prop := lex_le a.name b.name = true

instance : DecidableRel name_le := fun a b => Bool.decEq (lex_le a.name b.name) true

/-- Processing of one directory entry by load_content's scan loop
(main.py lines 213-230): a successfully loading image or video appends one
slide to the list built so far; a failing image or video logs one error and is
skipped, and the loop continues; a file with any other extension is ignored by
this loop.  The state is (slides built so far, errors logged so far). -/
def load_step (st : List SlideVal × ℕ) (e : Entry) : List SlideVal × ℕ :=
  if is_image_name e.name then
    if e.loadOk then (st.1 ++ [SlideVal.image e.name], st.2) else (st.1, st.2 + 1)
  else if is_video_name e.name then
    if e.loadOk then (st.1 ++ [SlideVal.video e.name], st.2) else (st.1, st.2 + 1)
  else st

/-- Slide scan of load_content (main.py lines 211-230): iterate over the
directory entries in sorted filename order, producing the slides list and the
number of per-item errors logged. -/
def load_content_scan (files : List Entry) : List SlideVal × ℕ :=
  (List.insertionSort name_le files).foldl load_step ([], 0)

/-- Entry that load_content turns into a slide. -/
def media_ok (e : Entry) : Bool :=
  (is_image_name e.name || is_video_name e.name) && e.loadOk

/-- Entry that load_content logs one error for and skips. -/
def media_bad (e : Entry) : Bool :=
  (is_image_name e.name || is_video_name e.name) && !e.loadOk

/-- Blank-line test: Python's line.strip() is falsy exactly when every
character of the line is whitespace (main.py line 239). -/
def is_blank (l : List Char) : Bool := l.all Char.isWhitespace

/-- Footer loading (main.py lines 237-239): keep the non-blank lines of
footer.txt, in their original order. -/
def footer_lines (ls : List (List Char)) : List (List Char) :=
  ls.filter (fun l => !is_blank l)

/-- Successive values of the module-global slides list observable while
load_content runs (main.py lines 209-230): the function first rebinds the
global to the empty list and then appends each built slide to it in place, so
a concurrent reader of the global — the playback loop, while the reload
handler runs load_content on the watchdog observer thread (main.py lines
419-426) — can observe every intermediate prefix of the new catalog. -/
def load_content_states (files : List Entry) : List (List SlideVal) :=
  (List.scanl load_step ([], 0) (List.insertionSort name_le files)).map Prod.fst

/-- Playback state shared between the main loop and the reload handler: the
global slides list, and the main loop's slide cursor current_slide. -/
structure PlayState where
  slides : List SlideVal
  current_slide : ℕ
deriving DecidableEq

/-- ReloadHandler.on_modified (main.py lines 420-421): rebuilds the slides
list via load_content; the cursor current_slide is not touched. -/
def on_modified (st : PlayState) (newSlides : List SlideVal) : PlayState :=
  { slides := newSlides, current_slide := st.current_slide }

/-- Main-loop slide lookup slides[current_slide] (main.py line 444); the none
result models the IndexError Python raises when the index is out of range. -/
def slide_access (st : PlayState) : Option SlideVal :=
  st.slides.get? st.current_slide

/-- Cursor advance of the main loop (main.py line 507):
current_slide = (current_slide + 1) % len(slides). -/
def advance_cursor (len c : ℕ) : ℕ := (c + 1) % len

/-- Test for an image slide, modelling the slide['type'] == 'image' checks of
the main loop (main.py lines 446 and 471). -/
def is_image_slide : Option SlideVal → Bool
  | some (SlideVal.image _) => true
  | _ => false

/-- Transition invocation condition of the main loop (main.py lines 446 and
469-474): a transition runs exactly when the current slide is an image (the
branch taken at line 446) and slides[(current_slide + 1) % len(slides)] is
also an image. -/
def transition_invoked (slides : List SlideVal) (c : ℕ) : Bool :=
  is_image_slide (slides.get? c) &&
    is_image_slide (slides.get? ((c + 1) % slides.length))

/-- Python's int() conversion on an exact rational: truncation toward zero. -/
def py_int (q : ℚ) : ℤ := if 0 ≤ q then ⌊q⌋ else -⌊-q⌋

/-- Step count used by every transition algorithm in normal mode (main.py
lines 305, 324, 349 and 377): int(TRANSITION_DURATION * TRANSITION_FPS).
No minimum is applied to the result. -/
def transition_steps (duration : ℚ) (fps : ℕ) : ℤ := py_int (duration * fps)

/-- Rounding of a rational to the nearest integer with ties to even, the
rounding of the significand an IEEE-754 binary operation performs. -/
def roundTE (x : ℚ) : ℤ :=
  if x - ⌊x⌋ < 1 / 2 then ⌊x⌋
  else if 1 / 2 < x - ⌊x⌋ then ⌊x⌋ + 1
  else if ⌊x⌋ % 2 = 0 then ⌊x⌋ else ⌊x⌋ + 1

/-- Rounding of an exact nonnegative rational to the nearest IEEE-754 double
(53-bit significand, round-to-nearest ties-to-even): scale the value into
[2^52, 2^53) by its binary exponent, round the significand to an integer, and
scale back.  Exponent-range effects (overflow and subnormal underflow) are not
modelled; every value arising in the fade computation lies well inside the
normal range for any step count below 2^52.  Nonpositive inputs (which do not
arise here) are mapped to 0. -/
def round53 (q : ℚ) : ℚ :=
  if q ≤ 0 then 0
  else (roundTE (q * (2 : ℚ) ^ (52 - Int.log 2 q)) : ℚ) * (2 : ℚ) ^ (Int.log 2 q - 52)

/-- Double-precision division: the exact quotient rounded to a double.
Python floats are IEEE-754 doubles with correctly rounded arithmetic; the
int operands (below 2^53) convert to double exactly. -/
def float_div (a b : ℚ) : ℚ := round53 (a / b)

/-- Double-precision subtraction: the exact difference rounded to a double. -/
def float_sub (a b : ℚ) : ℚ := round53 (a - b)

/-- Double-precision multiplication: the exact product rounded to a double. -/
def float_mul (a b : ℚ) : ℚ := round53 (a * b)

/-- Fade alpha at step i of N in normal mode (main.py line 306):
int(255 * (1 - step / transition_steps)), evaluated in IEEE-754 double
precision exactly as Python does — the division, the subtraction and the
multiplication each round to the nearest double, and int() truncates toward
zero. -/
def fade_alpha_float (N i : ℕ) : ℤ :=
  py_int (float_mul 255 (float_sub 1 (float_div (i : ℚ) (N : ℚ))))

/-- Fade alpha sequence in normal mode (main.py line 306). -/
def fade_alphas_float (N : ℕ) : List ℤ := (List.range N).map (fade_alpha_float N)

/-- Fade alpha sequence in fast mode (main.py line 303): the fixed list
[200, 128, 64], not derived from the duration/fps formula. -/
def fade_alphas_fast : List ℤ := [200, 128, 64]

/-- Zoom scale factors (main.py line 378): 1 - step / transition_steps for
each step of the transition. -/
def zoom_scales (N : ℕ) : List ℚ :=
  (List.range N).map (fun (step : ℕ) => 1 - (step : ℚ) / (N : ℚ))

/-- Number of frames transition_zoom renders (main.py lines 380-406): one
frame per strictly positive scale factor.  The render loop polls no input
events — the source notes at line 475 that the event checks were omitted from
the transition functions — so this count does not depend on when a quit or
escape event is posted to the event queue. -/
def zoom_frames_rendered (N : ℕ) : ℕ :=
  ((zoom_scales N).filter (fun s => decide (0 < s))).length

/-- Full-screen frame: the pixel value at each (x, y) coordinate. -/
def Frame : Type := ℕ → ℕ → ℕ

/-- Dissolve block list (main.py lines 336-342): the top-left corners
(x * block_size, y * block_size) for x in range(width // block_size) and
y in range(height // block_size), in that nesting order. -/
def dissolve_blocks (width height bs : ℕ) : List (ℕ × ℕ) :=
  ((List.range (width / bs)).map (fun x =>
    (List.range (height / bs)).map (fun y => (x * bs, y * bs)))).flatten

/-- Copy of one block of the incoming frame onto the working frame
(main.py lines 360-363: work_surf.blit(next_surf, (x, y), block_rect)). -/
def copy_block (nxt : Frame) (bs : ℕ) (p : ℕ × ℕ) (w : Frame) : Frame :=
  fun px py =>
    if p.1 ≤ px ∧ px < p.1 + bs ∧ p.2 ≤ py ∧ py < p.2 + bs then nxt px py
    else w px py

/-- Sequential copy of a list of blocks onto the working frame. -/
def blit_blocks (nxt : Frame) (bs : ℕ) (bl : List (ℕ × ℕ)) (w : Frame) : Frame :=
  bl.foldl (fun acc p => copy_block nxt bs p acc) w

/-- Chunk of the shuffled block list processed at one dissolve step
(main.py lines 353-357): blocks_per_step = len(blocks) // transition_steps,
start_idx = step * blocks_per_step, end_idx = start_idx + blocks_per_step for
every step but the last, which runs to the end of the list. -/
def dissolve_chunk (blocks : List (ℕ × ℕ)) (N s : ℕ) : List (ℕ × ℕ) :=
  if s < N - 1 then (blocks.drop (s * (blocks.length / N))).take (blocks.length / N)
  else blocks.drop (s * (blocks.length / N))

/-- Concatenation of the dissolve chunks in step order: the sequence of blocks
the dissolve replaces over its whole run. -/
def dissolve_order (blocks : List (ℕ × ℕ)) (N : ℕ) : List (ℕ × ℕ) :=
  ((List.range N).map (dissolve_chunk blocks N)).flatten

/-- Final working frame of transition_dissolve (main.py lines 352-368):
starting from a copy of the outgoing frame, each of the N steps copies its
chunk of the shuffled block list from the incoming frame. -/
def dissolve_final (cur nxt : Frame) (bs : ℕ) (blocks : List (ℕ × ℕ)) (N : ℕ) : Frame :=
  (List.range N).foldl (fun w s => blit_blocks nxt bs (dissolve_chunk blocks N s) w) cur

theorem advance_cursor_iterate (L c k : ℕ) :
    (advance_cursor L)^[k + 1] c = (c + k + 1) % L := by
  induction k generalizing c with
  | zero => rfl
  | succ k ih =>
    rw [Function.iterate_succ_apply, ih]
    show (((c + 1) % L) + k + 1) % L = (c + (k + 1) + 1) % L
    rw [Nat.add_assoc ((c + 1) % L) k 1, Nat.mod_add_mod]
    congr 1
    omega

/-- C9: for every catalog length L ≥ 1 and every in-range cursor index c,
advancing the cursor L times — each advance computed modulo the catalog
length, main.py line 507 — returns the cursor to its original index. -/
theorem cursor_wrap_invariant (L c : ℕ) (hL : 1 ≤ L) (hc : c < L) :
    (advance_cursor L)^[L] c = c := by
  obtain ⟨M, rfl⟩ : ∃ M, L = M + 1 := ⟨L - 1, by omega⟩
  rw [advance_cursor_iterate]
  rw [show c + M + 1 = c + (M + 1) by omega]
  rw [Nat.add_mod_right]
  exact Nat.mod_eq_of_lt hc

theorem cursor_wrap_invariant_witness : (advance_cursor 5)^[5] 3 = 3 :=
  cursor_wrap_invariant 5 3 (by decide) (by decide)

/-- C1: the reload handler replaces a five-slide catalog with a two-slide one
while the playback cursor sits at index 4; the cursor is not re-clamped, and
the next slide lookup slides[current_slide] (main.py line 444) is an
out-of-range read (an IndexError in Python, modelled as none). -/
theorem reload_out_of_range_access :
    (on_modified
        ⟨[SlideVal.image ("1.jpg".toList), SlideVal.image ("2.jpg".toList),
          SlideVal.image ("3.jpg".toList), SlideVal.image ("4.jpg".toList),
          SlideVal.image ("5.jpg".toList)], 4⟩
        [SlideVal.image ("x.jpg".toList), SlideVal.image ("y.jpg".toList)]).current_slide
        = 4 ∧
    slide_access
        (on_modified
          ⟨[SlideVal.image ("1.jpg".toList), SlideVal.image ("2.jpg".toList),
            SlideVal.image ("3.jpg".toList), SlideVal.image ("4.jpg".toList),
            SlideVal.image ("5.jpg".toList)], 4⟩
          [SlideVal.image ("x.jpg".toList), SlideVal.image ("y.jpg".toList)]) = none := by
  constructor
  · rfl
  · rfl

/-- C3: the internally computed step count int(TRANSITION_DURATION *
TRANSITION_FPS) has no minimum-1 floor: for transition_duration = 0.5 and
transition_fps = 1 the code computes 0 steps (and transition_dissolve then
divides len(blocks) by this zero at main.py line 353). -/
theorem transition_steps_no_minimum : transition_steps (1 / 2) 1 = 0 := by
  have h1 : ((1 : ℚ) / 2) * ((1 : ℕ) : ℚ) = 1 / 2 := by push_cast; ring
  unfold transition_steps py_int
  rw [h1, if_pos (by norm_num)]
  rw [Int.floor_eq_zero_iff.mpr]
  constructor <;> norm_num

/-- C5 counterexample: a catalog holding a single image slide does trigger a
transition — the successor index (0 + 1) % 1 = 0 points back at the same image
slide, so the main loop invokes a transition from the image to itself, even
though the catalog has fewer than 2 slides. -/
theorem single_image_catalog_self_transition :
    transition_invoked [SlideVal.image ("a.jpg".toList)] 0 = true ∧
    ([SlideVal.image ("a.jpg".toList)] : List SlideVal).length < 2 := by
  constructor
  · rfl
  · decide

theorem is_image_slide_iff (o : Option SlideVal) :
    is_image_slide o = true ↔ ∃ nm, o = some (SlideVal.image nm) := by
  cases o with
  | none => simp [is_image_slide]
  | some s =>
    cases s with
    | image nm => simp [is_image_slide]
    | video nm => simp [is_image_slide]

/-- C5 (amended): a transition is invoked exactly when the slide at the cursor
and the slide at the cyclic successor index (cursor + 1) % length are both
images — in particular never when either is a video — but a catalog with a
single image slide does invoke a (self-)transition. -/
theorem transition_only_between_images (sl : List SlideVal) (c : ℕ) :
    transition_invoked sl c = true ↔
      ((∃ nm, sl.get? c = some (SlideVal.image nm)) ∧
       (∃ nm, sl.get? ((c + 1) % sl.length) = some (SlideVal.image nm))) := by
  unfold transition_invoked
  rw [Bool.and_eq_true, is_image_slide_iff, is_image_slide_iff]

theorem transition_only_between_images_witness :
    transition_invoked
      [SlideVal.image ("a.jpg".toList), SlideVal.image ("b.jpg".toList)] 0 = true :=
  (transition_only_between_images
      [SlideVal.image ("a.jpg".toList), SlideVal.image ("b.jpg".toList)] 0).mpr
    ⟨⟨"a.jpg".toList, rfl⟩, ⟨"b.jpg".toList, rfl⟩⟩

theorem roundTE_ge_floor (x : ℚ) : ⌊x⌋ ≤ roundTE x := by
  unfold roundTE
  split_ifs <;> omega

theorem roundTE_le_floor_add_one (x : ℚ) : roundTE x ≤ ⌊x⌋ + 1 := by
  unfold roundTE
  split_ifs <;> omega

theorem roundTE_intCast (n : ℤ) : roundTE (n : ℚ) = n := by
  unfold roundTE
  rw [Int.floor_intCast, if_pos (by norm_num)]

theorem roundTE_mono {x y : ℚ} (h : x ≤ y) : roundTE x ≤ roundTE y := by
  rcases eq_or_lt_of_le (Int.floor_mono h) with hf | hf
  · unfold roundTE
    rw [← hf]
    have hxy : x - (⌊x⌋ : ℚ) ≤ y - (⌊x⌋ : ℚ) := by linarith
    split_ifs <;> first | omega | linarith
  · calc roundTE x ≤ ⌊x⌋ + 1 := roundTE_le_floor_add_one x
      _ ≤ ⌊y⌋ := by omega
      _ ≤ roundTE y := roundTE_ge_floor y

theorem int_log_eq {q : ℚ} {e : ℤ} (h0 : 0 < q) (h1 : (2 : ℚ) ^ e ≤ q)
    (h2 : q < (2 : ℚ) ^ (e + 1)) : Int.log 2 q = e := by
  have hcast : ((2 : ℕ) : ℚ) = (2 : ℚ) := by norm_num
  have ha : e ≤ Int.log 2 q :=
    (Int.zpow_le_iff_le_log (by norm_num) h0).mp (by rw [hcast]; exact h1)
  have hb : Int.log 2 q < e + 1 :=
    (Int.lt_zpow_iff_log_lt (by norm_num) h0).mp (by rw [hcast]; exact h2)
  omega

theorem round53_eval (q : ℚ) (e r : ℤ) (h0 : 0 < q) (h1 : (2 : ℚ) ^ e ≤ q)
    (h2 : q < (2 : ℚ) ^ (e + 1)) (hr : roundTE (q * (2 : ℚ) ^ (52 - e)) = r) :
    round53 q = (r : ℚ) * (2 : ℚ) ^ (e - 52) := by
  have hlog : Int.log 2 q = e := int_log_eq h0 h1 h2
  unfold round53
  rw [if_neg (not_le.mpr h0), hlog, hr]

theorem roundTE_eval_down (x : ℚ) (n : ℤ) (h1 : (n : ℚ) ≤ x)
    (h2 : x < (n : ℚ) + 1 / 2) : roundTE x = n := by
  have hf : ⌊x⌋ = n := Int.floor_eq_iff.mpr ⟨h1, by linarith⟩
  unfold roundTE
  rw [hf, if_pos (by linarith)]

theorem roundTE_eval_up (x : ℚ) (n : ℤ) (h1 : (n : ℚ) + 1 / 2 < x)
    (h2 : x < (n : ℚ) + 1) : roundTE x = n + 1 := by
  have hf : ⌊x⌋ = n := Int.floor_eq_iff.mpr ⟨by linarith, by linarith⟩
  unfold roundTE
  rw [hf, if_neg (by linarith), if_pos (by linarith)]

theorem round53_nonneg (q : ℚ) : 0 ≤ round53 q := by
  unfold round53
  split_ifs with hq
  · exact le_refl 0
  · push_neg at hq
    have hm : (0 : ℚ) < q * (2 : ℚ) ^ (52 - Int.log 2 q) := by positivity
    have h1 : (0 : ℤ) ≤ ⌊q * (2 : ℚ) ^ (52 - Int.log 2 q)⌋ :=
      Int.le_floor.mpr (by exact_mod_cast hm.le)
    have h2 := roundTE_ge_floor (q * (2 : ℚ) ^ (52 - Int.log 2 q))
    have h3 : (0 : ℚ) ≤ (roundTE (q * (2 : ℚ) ^ (52 - Int.log 2 q)) : ℚ) := by
      exact_mod_cast le_trans h1 h2
    exact mul_nonneg h3 (by positivity)

theorem round53_mono {x y : ℚ} (h : x ≤ y) : round53 x ≤ round53 y := by
  by_cases hx : x ≤ 0
  · have hx0 : round53 x = 0 := by
      unfold round53
      rw [if_pos hx]
    rw [hx0]
    exact round53_nonneg y
  · push_neg at hx
    have hy : 0 < y := lt_of_lt_of_le hx h
    have hcast : ((2 : ℕ) : ℚ) = (2 : ℚ) := by norm_num
    have hexy : Int.log 2 x ≤ Int.log 2 y := Int.log_mono_right hx h
    unfold round53
    rw [if_neg (not_le.mpr hx), if_neg (not_le.mpr hy)]
    rcases eq_or_lt_of_le hexy with heq | hlt
    · rw [← heq]
      have hm : x * (2 : ℚ) ^ (52 - Int.log 2 x) ≤ y * (2 : ℚ) ^ (52 - Int.log 2 x) :=
        mul_le_mul_of_nonneg_right h (by positivity)
      have hr := roundTE_mono hm
      exact mul_le_mul_of_nonneg_right (by exact_mod_cast hr) (by positivity)
    · have hxlt : x < (2 : ℚ) ^ (Int.log 2 x + 1) := by
        have h1 := Int.lt_zpow_succ_log_self (by norm_num : (1 : ℕ) < 2) x
        rwa [hcast] at h1
      have hylb : (2 : ℚ) ^ Int.log 2 y ≤ y := by
        have h1 := Int.zpow_log_le_self (by norm_num : (1 : ℕ) < 2) hy
        rwa [hcast] at h1
      have hmx : x * (2 : ℚ) ^ (52 - Int.log 2 x) < (2 : ℚ) ^ (53 : ℤ) := by
        have h1 : x * (2 : ℚ) ^ (52 - Int.log 2 x)
            < (2 : ℚ) ^ (Int.log 2 x + 1) * (2 : ℚ) ^ (52 - Int.log 2 x) :=
          mul_lt_mul_of_pos_right hxlt (by positivity)
        have h2 : (2 : ℚ) ^ (Int.log 2 x + 1) * (2 : ℚ) ^ (52 - Int.log 2 x)
            = (2 : ℚ) ^ (53 : ℤ) := by
          rw [← zpow_add₀ (by norm_num : (2 : ℚ) ≠ 0)]
          congr 1
          omega
        rw [h2] at h1
        exact h1
      have hrx_int : roundTE (x * (2 : ℚ) ^ (52 - Int.log 2 x)) ≤ 2 ^ 53 := by
        have hfl : ⌊x * (2 : ℚ) ^ (52 - Int.log 2 x)⌋ < 2 ^ 53 := by
          rw [Int.floor_lt]
          calc x * (2 : ℚ) ^ (52 - Int.log 2 x) < (2 : ℚ) ^ (53 : ℤ) := hmx
            _ = ((2 ^ 53 : ℤ) : ℚ) := by push_cast; norm_num
        have h1 := roundTE_le_floor_add_one (x * (2 : ℚ) ^ (52 - Int.log 2 x))
        omega
      have hry_int : (2 : ℤ) ^ 52 ≤ roundTE (y * (2 : ℚ) ^ (52 - Int.log 2 y)) := by
        have hmy : (2 : ℚ) ^ (52 : ℤ) ≤ y * (2 : ℚ) ^ (52 - Int.log 2 y) := by
          have h2 : (2 : ℚ) ^ (52 : ℤ)
              = (2 : ℚ) ^ Int.log 2 y * (2 : ℚ) ^ (52 - Int.log 2 y) := by
            rw [← zpow_add₀ (by norm_num : (2 : ℚ) ≠ 0)]
            congr 1
            omega
          rw [h2]
          exact mul_le_mul_of_nonneg_right hylb (by positivity)
        have hfl : (2 : ℤ) ^ 52 ≤ ⌊y * (2 : ℚ) ^ (52 - Int.log 2 y)⌋ := by
          rw [Int.le_floor]
          calc ((2 ^ 52 : ℤ) : ℚ) = (2 : ℚ) ^ (52 : ℤ) := by push_cast; norm_num
            _ ≤ _ := hmy
        have h2 := roundTE_ge_floor (y * (2 : ℚ) ^ (52 - Int.log 2 y))
        omega
      have hc1 : (roundTE (x * (2 : ℚ) ^ (52 - Int.log 2 x)) : ℚ) ≤ (2 : ℚ) ^ (53 : ℤ) := by
        calc (roundTE (x * (2 : ℚ) ^ (52 - Int.log 2 x)) : ℚ) ≤ ((2 ^ 53 : ℤ) : ℚ) := by
              exact_mod_cast hrx_int
          _ = (2 : ℚ) ^ (53 : ℤ) := by push_cast; norm_num
      have hc2 : (2 : ℚ) ^ (52 : ℤ) ≤ (roundTE (y * (2 : ℚ) ^ (52 - Int.log 2 y)) : ℚ) := by
        calc (2 : ℚ) ^ (52 : ℤ) = ((2 ^ 52 : ℤ) : ℚ) := by push_cast; norm_num
          _ ≤ _ := by exact_mod_cast hry_int
      calc (roundTE (x * (2 : ℚ) ^ (52 - Int.log 2 x)) : ℚ) * (2 : ℚ) ^ (Int.log 2 x - 52)
            ≤ (2 : ℚ) ^ (53 : ℤ) * (2 : ℚ) ^ (Int.log 2 x - 52) :=
              mul_le_mul_of_nonneg_right hc1 (by positivity)
        _ = (2 : ℚ) ^ (Int.log 2 x + 1) := by
              rw [← zpow_add₀ (by norm_num : (2 : ℚ) ≠ 0)]
              congr 1
              omega
        _ ≤ (2 : ℚ) ^ Int.log 2 y := zpow_le_zpow_right₀ (by norm_num) (by omega)
        _ = (2 : ℚ) ^ (52 : ℤ) * (2 : ℚ) ^ (Int.log 2 y - 52) := by
              rw [← zpow_add₀ (by norm_num : (2 : ℚ) ≠ 0)]
              congr 1
              omega
        _ ≤ (roundTE (y * (2 : ℚ) ^ (52 - Int.log 2 y)) : ℚ) * (2 : ℚ) ^ (Int.log 2 y - 52) :=
              mul_le_mul_of_nonneg_right hc2 (by positivity)

theorem round53_one : round53 (1 : ℚ) = 1 := by
  have hr : roundTE ((1 : ℚ) * (2 : ℚ) ^ ((52 : ℤ) - 0)) = 4503599627370496 := by
    rw [show (1 : ℚ) * (2 : ℚ) ^ ((52 : ℤ) - 0) = ((4503599627370496 : ℤ) : ℚ) from by
      norm_num]
    exact roundTE_intCast 4503599627370496
  have h := round53_eval 1 0 4503599627370496 one_pos (by norm_num) (by norm_num) hr
  rw [h]
  norm_num

theorem round53_255 : round53 (255 : ℚ) = 255 := by
  have hr : roundTE ((255 : ℚ) * (2 : ℚ) ^ ((52 : ℤ) - 7)) = 8972014882652160 := by
    rw [show (255 : ℚ) * (2 : ℚ) ^ ((52 : ℤ) - 7) = ((8972014882652160 : ℤ) : ℚ) from by
      norm_num]
    exact roundTE_intCast 8972014882652160
  have h := round53_eval 255 7 8972014882652160 (by norm_num) (by norm_num) (by norm_num) hr
  rw [h]
  norm_num

theorem py_int_mono {x y : ℚ} (h : x ≤ y) : py_int x ≤ py_int y := by
  unfold py_int
  split_ifs with hx hy hy
  · exact Int.floor_mono h
  · exact absurd (le_trans hx h) hy
  · push_neg at hx
    have h1 : (0 : ℤ) ≤ ⌊-x⌋ := Int.le_floor.mpr (by push_cast; linarith)
    have h2 : (0 : ℤ) ≤ ⌊y⌋ := Int.le_floor.mpr (by push_cast; linarith)
    omega
  · push_neg at hx hy
    have h1 := Int.floor_mono (neg_le_neg h)
    omega

theorem fade_alpha_float_step0 (N : ℕ) : fade_alpha_float N 0 = 255 := by
  unfold fade_alpha_float float_div float_sub float_mul
  rw [show ((0 : ℕ) : ℚ) / (N : ℚ) = 0 from by norm_num]
  rw [show round53 (0 : ℚ) = 0 from by unfold round53; rw [if_pos le_rfl]]
  rw [show (1 : ℚ) - 0 = 1 from by norm_num, round53_one]
  rw [show (255 : ℚ) * 1 = 255 from by norm_num, round53_255]
  unfold py_int
  rw [if_pos (by norm_num)]
  rw [show (255 : ℚ) = ((255 : ℤ) : ℚ) from by norm_num, Int.floor_intCast]

theorem fade_alpha_float_mono (N i j : ℕ) (hij : i ≤ j) :
    fade_alpha_float N j ≤ fade_alpha_float N i := by
  have hdiv : (i : ℚ) / (N : ℚ) ≤ (j : ℚ) / (N : ℚ) := by
    rcases Nat.eq_zero_or_pos N with hN0 | hN0
    · subst hN0
      norm_num
    · have hN : (0 : ℚ) < (N : ℚ) := by exact_mod_cast hN0
      have hijq : (i : ℚ) ≤ (j : ℚ) := by exact_mod_cast hij
      exact div_le_div_of_nonneg_right hijq hN.le
  unfold fade_alpha_float float_div float_sub float_mul
  apply py_int_mono
  apply round53_mono
  have h1 := round53_mono hdiv
  have h2 : (1 : ℚ) - round53 ((j : ℚ) / (N : ℚ)) ≤ 1 - round53 ((i : ℚ) / (N : ℚ)) := by
    linarith
  have h3 := round53_mono h2
  linarith

theorem fade_alpha_float_5_4 : fade_alpha_float 5 4 = 50 := by
  have h1 : round53 ((4 : ℚ) / 5) = 3602879701896397 / 4503599627370496 := by
    have hr : roundTE ((4 : ℚ) / 5 * (2 : ℚ) ^ ((52 : ℤ) - (-1))) = 7205759403792794 := by
      rw [show (4 : ℚ) / 5 * (2 : ℚ) ^ ((52 : ℤ) - (-1)) = 36028797018963968 / 5 from by
        norm_num]
      rw [roundTE_eval_up (36028797018963968 / 5) 7205759403792793 (by norm_num)
        (by norm_num)]
      norm_num
    have h := round53_eval ((4 : ℚ) / 5) (-1) 7205759403792794 (by norm_num) (by norm_num)
      (by norm_num) hr
    rw [h]
    norm_num
  have h2 : round53 ((1 : ℚ) - 3602879701896397 / 4503599627370496)
      = 900719925474099 / 4503599627370496 := by
    have hr : roundTE (((1 : ℚ) - 3602879701896397 / 4503599627370496)
        * (2 : ℚ) ^ ((52 : ℤ) - (-3))) = 7205759403792792 := by
      rw [show ((1 : ℚ) - 3602879701896397 / 4503599627370496)
          * (2 : ℚ) ^ ((52 : ℤ) - (-3)) = ((7205759403792792 : ℤ) : ℚ) from by norm_num]
      exact roundTE_intCast 7205759403792792
    have h := round53_eval ((1 : ℚ) - 3602879701896397 / 4503599627370496) (-3)
      7205759403792792 (by norm_num) (by norm_num) (by norm_num) hr
    rw [h]
    norm_num
  have h3 : round53 ((255 : ℚ) * (900719925474099 / 4503599627370496))
      = 3588805953060863 / 70368744177664 := by
    have hr : roundTE ((255 : ℚ) * (900719925474099 / 4503599627370496)
        * (2 : ℚ) ^ ((52 : ℤ) - 5)) = 7177611906121726 := by
      rw [show (255 : ℚ) * (900719925474099 / 4503599627370496)
          * (2 : ℚ) ^ ((52 : ℤ) - 5) = 229683580995895245 / 32 from by norm_num]
      rw [roundTE_eval_down (229683580995895245 / 32) 7177611906121726 (by norm_num)
        (by norm_num)]
    have h := round53_eval ((255 : ℚ) * (900719925474099 / 4503599627370496)) 5
      7177611906121726 (by norm_num) (by norm_num) (by norm_num) hr
    rw [h]
    norm_num
  unfold fade_alpha_float float_div float_sub float_mul
  rw [show ((4 : ℕ) : ℚ) / ((5 : ℕ) : ℚ) = (4 : ℚ) / 5 from by norm_num]
  rw [h1, h2, h3]
  unfold py_int
  rw [if_pos (by norm_num)]
  exact Int.floor_eq_iff.mpr ⟨by norm_num, by norm_num⟩

theorem fade_alpha_float_510_1 : fade_alpha_float 510 1 = 254 := by
  have h1 : round53 ((1 : ℚ) / 510) = 282578800148737 / 144115188075855872 := by
    have hr : roundTE ((1 : ℚ) / 510 * (2 : ℚ) ^ ((52 : ℤ) - (-9))) = 4521260802379792 := by
      rw [show (1 : ℚ) / 510 * (2 : ℚ) ^ ((52 : ℤ) - (-9))
          = 1152921504606846976 / 255 from by norm_num]
      rw [roundTE_eval_down (1152921504606846976 / 255) 4521260802379792 (by norm_num)
        (by norm_num)]
    have h := round53_eval ((1 : ℚ) / 510) (-9) 4521260802379792 (by norm_num) (by norm_num)
      (by norm_num) hr
    rw [h]
    norm_num
  have h2 : round53 ((1 : ℚ) - 282578800148737 / 144115188075855872)
      = 561846129983231 / 562949953421312 := by
    have hr : roundTE (((1 : ℚ) - 282578800148737 / 144115188075855872)
        * (2 : ℚ) ^ ((52 : ℤ) - (-1))) = 8989538079731696 := by
      rw [show ((1 : ℚ) - 282578800148737 / 144115188075855872)
          * (2 : ℚ) ^ ((52 : ℤ) - (-1)) = 143832609275707135 / 16 from by norm_num]
      rw [roundTE_eval_up (143832609275707135 / 16) 8989538079731695 (by norm_num)
        (by norm_num)]
      norm_num
    have h := round53_eval ((1 : ℚ) - 282578800148737 / 144115188075855872) (-1)
      8989538079731696 (by norm_num) (by norm_num) (by norm_num) hr
    rw [h]
    norm_num
  have h3 : round53 ((255 : ℚ) * (561846129983231 / 562949953421312)) = 509 / 2 := by
    have hr : roundTE ((255 : ℚ) * (561846129983231 / 562949953421312)
        * (2 : ℚ) ^ ((52 : ℤ) - 7)) = 8954422696607744 := by
      rw [show (255 : ℚ) * (561846129983231 / 562949953421312)
          * (2 : ℚ) ^ ((52 : ℤ) - 7) = 143270763145723905 / 16 from by norm_num]
      rw [roundTE_eval_down (143270763145723905 / 16) 8954422696607744 (by norm_num)
        (by norm_num)]
    have h := round53_eval ((255 : ℚ) * (561846129983231 / 562949953421312)) 7
      8954422696607744 (by norm_num) (by norm_num) (by norm_num) hr
    rw [h]
    norm_num
  unfold fade_alpha_float float_div float_sub float_mul
  rw [show ((1 : ℕ) : ℚ) / ((510 : ℕ) : ℚ) = (1 : ℚ) / 510 from by norm_num]
  rw [h1, h2, h3]
  unfold py_int
  rw [if_pos (by norm_num)]
  exact Int.floor_eq_iff.mpr ⟨by norm_num, by norm_num⟩

theorem fade_alpha_float_510_2 : fade_alpha_float 510 2 = 254 := by
  have h1 : round53 ((1 : ℚ) / 255) = 282578800148737 / 72057594037927936 := by
    have hr : roundTE ((1 : ℚ) / 255 * (2 : ℚ) ^ ((52 : ℤ) - (-8))) = 4521260802379792 := by
      rw [show (1 : ℚ) / 255 * (2 : ℚ) ^ ((52 : ℤ) - (-8))
          = 1152921504606846976 / 255 from by norm_num]
      rw [roundTE_eval_down (1152921504606846976 / 255) 4521260802379792 (by norm_num)
        (by norm_num)]
    have h := round53_eval ((1 : ℚ) / 255) (-8) 4521260802379792 (by norm_num) (by norm_num)
      (by norm_num) hr
    rw [h]
    norm_num
  have h2 : round53 ((1 : ℚ) - 282578800148737 / 72057594037927936)
      = 280371153272575 / 281474976710656 := by
    have hr : roundTE (((1 : ℚ) - 282578800148737 / 72057594037927936)
        * (2 : ℚ) ^ ((52 : ℤ) - (-1))) = 8971876904722400 := by
      rw [show ((1 : ℚ) - 282578800148737 / 72057594037927936)
          * (2 : ℚ) ^ ((52 : ℤ) - (-1)) = 71775015237779199 / 8 from by norm_num]
      rw [roundTE_eval_up (71775015237779199 / 8) 8971876904722399 (by norm_num)
        (by norm_num)]
      norm_num
    have h := round53_eval ((1 : ℚ) - 282578800148737 / 72057594037927936) (-1)
      8971876904722400 (by norm_num) (by norm_num) (by norm_num) hr
    rw [h]
    norm_num
  have h3 : round53 ((255 : ℚ) * (280371153272575 / 281474976710656)) = 254 := by
    have hr : roundTE ((255 : ℚ) * (280371153272575 / 281474976710656)
        * (2 : ℚ) ^ ((52 : ℤ) - 7)) = 8936830510563328 := by
      rw [show (255 : ℚ) * (280371153272575 / 281474976710656)
          * (2 : ℚ) ^ ((52 : ℤ) - 7) = 71494644084506625 / 8 from by norm_num]
      rw [roundTE_eval_down (71494644084506625 / 8) 8936830510563328 (by norm_num)
        (by norm_num)]
    have h := round53_eval ((255 : ℚ) * (280371153272575 / 281474976710656)) 7
      8936830510563328 (by norm_num) (by norm_num) (by norm_num) hr
    rw [h]
    norm_num
  unfold fade_alpha_float float_div float_sub float_mul
  rw [show ((2 : ℕ) : ℚ) / ((510 : ℕ) : ℚ) = (1 : ℚ) / 255 from by norm_num]
  rw [h1, h2, h3]
  unfold py_int
  rw [if_pos (by norm_num)]
  rw [show (254 : ℚ) = ((254 : ℤ) : ℚ) from by norm_num, Int.floor_intCast]

/-- C6 counterexample: in fast mode the fade alphas are the fixed sequence
[200, 128, 64], so the first displayed alpha is 200 while the claimed formula
255 * (1 - i/N) gives 255 at step 0 (shown for the fast mode's own step count
N = 3); in normal mode the double-precision evaluation deviates from the exact
formula — at N = 5 the final step computes alpha 50 where the formula gives
exactly 51 — and it is not strictly decreasing: at N = 510, steps 1 and 2 both
compute alpha 254.  All three normal-mode values match CPython's floats. -/
theorem fade_alpha_formula_counterexample :
    fade_alphas_fast.get? 0 = some 200 ∧
    fade_alpha_float 3 0 = 255 ∧
    ((200 : ℤ) ≠ 255) ∧
    fade_alpha_float 5 4 = 50 ∧
    (255 : ℚ) * (1 - (4 : ℚ) / 5) = 51 ∧
    ((50 : ℤ) ≠ 51) ∧
    fade_alpha_float 510 1 = 254 ∧
    fade_alpha_float 510 2 = 254 :=
  ⟨rfl, fade_alpha_float_step0 3, by decide, fade_alpha_float_5_4, by norm_num, by decide,
   fade_alpha_float_510_1, fade_alpha_float_510_2⟩

/-- C6 (amended): in normal mode the fade alpha at step i of N is
int(255 * (1 - i/N)) evaluated in IEEE-754 double precision: it is exactly 255
at step 0 and weakly decreasing across steps (float rounding makes adjacent
steps repeat a value for some N, and the values deviate from the exact
formula, so neither strict decrease nor the exact formula values hold); in
fast mode the alphas are the fixed strictly decreasing sequence 200, 128, 64,
which is not given by the formula. -/
theorem fade_alpha_properties (N : ℕ) (_hN : 1 ≤ N) :
    fade_alpha_float N 0 = 255 ∧
    (∀ i j, i ≤ j → fade_alpha_float N j ≤ fade_alpha_float N i) ∧
    List.Chain' (fun a b => b < a) fade_alphas_fast := by
  refine ⟨fade_alpha_float_step0 N, fun i j hij => fade_alpha_float_mono N i j hij, ?_⟩
  norm_num [fade_alphas_fast, List.chain'_cons]

theorem fade_alpha_properties_witness :
    fade_alpha_float 5 0 = 255 ∧ fade_alpha_float 5 4 ≤ fade_alpha_float 5 0 :=
  ⟨(fade_alpha_properties 5 (by decide)).1,
   (fade_alpha_properties 5 (by decide)).2.1 0 4 (by decide)⟩

theorem zoom_scales_pos (N : ℕ) : ∀ s ∈ zoom_scales N, 0 < s := by
  intro s hs
  unfold zoom_scales at hs
  rw [List.mem_map] at hs
  obtain ⟨step, hstep, rfl⟩ := hs
  rw [List.mem_range] at hstep
  have hN : 0 < N := by omega
  have hNQ : (0 : ℚ) < (N : ℚ) := by exact_mod_cast hN
  have hlt : (step : ℚ) / (N : ℚ) < 1 := by
    rw [div_lt_one hNQ]
    exact_mod_cast hstep
  linarith

/-- C4: transition_zoom renders one frame for every one of its N scale
factors, whatever input events are pending — the transition loops contain no
event polling (main.py lines 370-406; line 475 notes the checks were omitted)
— so a stop signal arriving at step 10 of a 30-step zoom does not stop frame
production: all remaining steps are still rendered, and the signal is only
observed after the transition, at the next polling loop. -/
theorem zoom_renders_every_frame (N : ℕ) : zoom_frames_rendered N = N := by
  unfold zoom_frames_rendered
  have h : ∀ s ∈ zoom_scales N, (fun s => decide (0 < s)) s = true := by
    intro s hs
    simp only [decide_eq_true_eq]
    exact zoom_scales_pos N s hs
  rw [List.filter_eq_self.mpr h]
  unfold zoom_scales
  rw [List.length_map, List.length_range]

theorem load_step_counts (e : Entry) (acc : List SlideVal × ℕ) :
    (load_step acc e).1.length = acc.1.length + (if media_ok e then 1 else 0) ∧
    (load_step acc e).2 = acc.2 + (if media_bad e then 1 else 0) := by
  cases hIm : is_image_name e.name <;> cases hVid : is_video_name e.name <;>
    cases hOk : e.loadOk <;>
      simp [load_step, media_ok, media_bad, hIm, hVid, hOk]

theorem load_step_foldl_counts (l : List Entry) :
    ∀ acc : List SlideVal × ℕ,
      (l.foldl load_step acc).1.length = acc.1.length + l.countP media_ok ∧
      (l.foldl load_step acc).2 = acc.2 + l.countP media_bad := by
  induction l with
  | nil => intro acc; simp
  | cons e t ih =>
    intro acc
    rw [List.foldl_cons, List.countP_cons, List.countP_cons]
    obtain ⟨ih1, ih2⟩ := ih (load_step acc e)
    obtain ⟨he1, he2⟩ := load_step_counts e acc
    rw [ih1, ih2, he1, he2]
    constructor <;> cases hok : media_ok e <;> cases hbad : media_bad e <;>
      simp [hok, hbad] <;> omega

/-- C7: the catalog scan recovers every per-item load failure locally and
never aborts — for every directory listing, the slide count equals the number
of loadable media entries and the error count equals the number of failing
media entries — and on the concrete scenario of 3 valid images, 1 corrupt
image and a footer.txt (entries given out of order), the catalog has exactly
the 3 valid slides in lexicographic filename order, exactly 1 error is
logged, and a footer of 2 non-blank lines and 1 blank line yields exactly the
2 non-blank lines in order. -/
theorem load_content_partial_success :
    (∀ files : List Entry,
      (load_content_scan files).1.length = files.countP media_ok ∧
      (load_content_scan files).2 = files.countP media_bad) ∧
    load_content_scan
        [⟨"d.jpg".toList, true⟩, ⟨"b.jpg".toList, false⟩,
         ⟨"footer.txt".toList, true⟩, ⟨"a.jpg".toList, true⟩,
         ⟨"c.jpg".toList, true⟩] =
      ([SlideVal.image ("a.jpg".toList), SlideVal.image ("c.jpg".toList),
        SlideVal.image ("d.jpg".toList)], 1) ∧
    footer_lines [("Visit us downstairs".toList), ("".toList),
        ("Open 9am to 5pm".toList)] =
      [("Visit us downstairs".toList), ("Open 9am to 5pm".toList)] := by
  refine ⟨?_, by decide, by decide⟩
  intro files
  unfold load_content_scan
  obtain ⟨h1, h2⟩ := load_step_foldl_counts (List.insertionSort name_le files) ([], 0)
  have hperm := List.perm_insertionSort name_le files
  rw [h1, h2, hperm.countP_eq media_ok, hperm.countP_eq media_bad]
  simp

/-- C8: catalog replacement is not atomic from the playback loop's point of
view: load_content rebinds the global slides list to [] and then appends the
new slides one by one (main.py lines 210-230), so while the reload handler
rebuilds a two-slide catalog over a one-slide one, a concurrent read of the
global can observe the empty list and the one-slide prefix of the new catalog
— states that are neither the complete old catalog nor the complete new one. -/
theorem reload_exposes_partial_catalog :
    ([] : List SlideVal) ∈
      load_content_states [⟨"a.jpg".toList, true⟩, ⟨"b.jpg".toList, true⟩] ∧
    [SlideVal.image ("a.jpg".toList)] ∈
      load_content_states [⟨"a.jpg".toList, true⟩, ⟨"b.jpg".toList, true⟩] ∧
    (load_content_scan [⟨"a.jpg".toList, true⟩, ⟨"b.jpg".toList, true⟩]).1 =
      [SlideVal.image ("a.jpg".toList), SlideVal.image ("b.jpg".toList)] ∧
    ([] : List SlideVal) ≠ [SlideVal.image ("old.jpg".toList)] ∧
    [SlideVal.image ("a.jpg".toList)] ≠ [SlideVal.image ("old.jpg".toList)] ∧
    [SlideVal.image ("a.jpg".toList)] ≠
      [SlideVal.image ("a.jpg".toList), SlideVal.image ("b.jpg".toList)] := by
  refine ⟨by decide, by decide, by decide, by decide, by decide, by decide⟩

/-- C10: content classification by filename extension is case-insensitive:
the scan compares file.lower() against the lowercase extensions, so the
classification depends only on the lowercased name, and names such as
PHOTO.JPG, Clip.MP4 and pic.PnG are classified as image or video slides just
like their documented lowercase forms. -/
theorem extension_case_insensitive :
    (∀ n m : List Char, to_lower n = to_lower m →
        is_image_name n = is_image_name m ∧ is_video_name n = is_video_name m) ∧
    is_image_name ("PHOTO.JPG".toList) = true ∧
    is_video_name ("Clip.MP4".toList) = true ∧
    is_image_name ("pic.PnG".toList) = true ∧
    is_image_name ("photo.jpg".toList) = true := by
  refine ⟨?_, by decide, by decide, by decide, by decide⟩
  intro n m h
  unfold is_image_name is_video_name
  rw [h]
  exact ⟨rfl, rfl⟩

theorem extension_case_insensitive_witness :
    is_image_name ("a.JPg".toList) = is_image_name ("A.jpg".toList) :=
  (extension_case_insensitive.1 ("a.JPg".toList) ("A.jpg".toList) (by decide)).1

theorem chunks_prefix (l : List (ℕ × ℕ)) (b : ℕ) (m : ℕ) :
    (((List.range m).map (fun s => (l.drop (s * b)).take b)).flatten) = l.take (m * b) := by
  induction m with
  | zero => simp
  | succ m ih =>
    rw [List.range_succ, List.map_append, List.flatten_append, ih]
    rw [show (m + 1) * b = m * b + b by ring, List.take_add]
    simp

theorem dissolve_order_eq (l : List (ℕ × ℕ)) (N : ℕ) (hN : 1 ≤ N) :
    dissolve_order l N = l := by
  obtain ⟨M, rfl⟩ : ∃ M, N = M + 1 := ⟨N - 1, by omega⟩
  unfold dissolve_order
  rw [List.range_succ, List.map_append, List.flatten_append]
  have hchunk : ∀ s ∈ List.range M, dissolve_chunk l (M + 1) s
      = (l.drop (s * (l.length / (M + 1)))).take (l.length / (M + 1)) := by
    intro s hs
    have hsM : s < M + 1 - 1 := by simpa using List.mem_range.mp hs
    unfold dissolve_chunk
    rw [if_pos hsM]
  rw [List.map_congr_left hchunk, chunks_prefix]
  have hlast : dissolve_chunk l (M + 1) M = l.drop (M * (l.length / (M + 1))) := by
    simp [dissolve_chunk]
  simp only [List.map_cons, List.map_nil, List.flatten_cons, List.flatten_nil,
    List.append_nil]
  rw [hlast]
  exact List.take_append_drop _ l

theorem blit_blocks_flatten (nxt : Frame) (bs : ℕ) (L : List (List (ℕ × ℕ))) (w : Frame) :
    blit_blocks nxt bs L.flatten w = L.foldl (fun w c => blit_blocks nxt bs c w) w := by
  induction L generalizing w with
  | nil => rfl
  | cons x xs ih =>
    show blit_blocks nxt bs (x ++ xs.flatten) w = _
    unfold blit_blocks
    rw [List.foldl_append, List.foldl_cons]
    exact ih _

theorem dissolve_final_eq (cur nxt : Frame) (bs : ℕ) (blocks : List (ℕ × ℕ)) (N : ℕ) :
    dissolve_final cur nxt bs blocks N = blit_blocks nxt bs (dissolve_order blocks N) cur := by
  unfold dissolve_final dissolve_order
  rw [blit_blocks_flatten, List.foldl_map]

theorem blit_blocks_pixel (nxt : Frame) (bs : ℕ) (bl : List (ℕ × ℕ)) (w : Frame) (px py : ℕ) :
    blit_blocks nxt bs bl w px py =
      if ∃ p ∈ bl, p.1 ≤ px ∧ px < p.1 + bs ∧ p.2 ≤ py ∧ py < p.2 + bs
      then nxt px py else w px py := by
  induction bl generalizing w with
  | nil => simp [blit_blocks]
  | cons q t ih =>
    have hstep : blit_blocks nxt bs (q :: t) w
        = blit_blocks nxt bs t (copy_block nxt bs q w) := rfl
    rw [hstep, ih]
    rw [if_congr (List.exists_mem_cons_iff
      (fun p => p.1 ≤ px ∧ px < p.1 + bs ∧ p.2 ≤ py ∧ py < p.2 + bs) q t) rfl rfl]
    by_cases hq : q.1 ≤ px ∧ px < q.1 + bs ∧ q.2 ≤ py ∧ py < q.2 + bs
    · by_cases ht : ∃ p ∈ t, p.1 ≤ px ∧ px < p.1 + bs ∧ p.2 ≤ py ∧ py < p.2 + bs
      · simp [copy_block, hq, ht]
      · simp [copy_block, hq, ht]
    · by_cases ht : ∃ p ∈ t, p.1 ≤ px ∧ px < p.1 + bs ∧ p.2 ≤ py ∧ py < p.2 + bs
      · simp [copy_block, hq, ht]
      · simp [copy_block, hq, ht]

theorem dissolve_blocks_mem (W Hh bs : ℕ) (p : ℕ × ℕ) :
    p ∈ dissolve_blocks W Hh bs ↔
      ∃ x, x < W / bs ∧ ∃ y, y < Hh / bs ∧ p = (x * bs, y * bs) := by
  unfold dissolve_blocks
  rw [List.mem_flatten]
  constructor
  · rintro ⟨l, hl, hpl⟩
    obtain ⟨x, hx, rfl⟩ := List.mem_map.mp hl
    obtain ⟨y, hy, rfl⟩ := List.mem_map.mp hpl
    exact ⟨x, List.mem_range.mp hx, y, List.mem_range.mp hy, rfl⟩
  · rintro ⟨x, hx, y, hy, rfl⟩
    refine ⟨(List.range (Hh / bs)).map (fun y => (x * bs, y * bs)), ?_, ?_⟩
    · exact List.mem_map.mpr ⟨x, List.mem_range.mpr hx, rfl⟩
    · exact List.mem_map.mpr ⟨y, List.mem_range.mpr hy, rfl⟩

theorem dissolve_cover_iff (W Hh bs : ℕ) (hbs : 0 < bs) (px py : ℕ) :
    (∃ p ∈ dissolve_blocks W Hh bs,
        p.1 ≤ px ∧ px < p.1 + bs ∧ p.2 ≤ py ∧ py < p.2 + bs)
      ↔ (px < W / bs * bs ∧ py < Hh / bs * bs) := by
  constructor
  · rintro ⟨p, hp, h1, h2, h3, h4⟩
    obtain ⟨x, hx, y, hy, rfl⟩ := (dissolve_blocks_mem W Hh bs p).mp hp
    constructor
    · have hx1 : px < (x + 1) * bs := by
        simp only [add_mul, one_mul]
        exact h2
      exact lt_of_lt_of_le hx1 (Nat.mul_le_mul_right bs (by omega))
    · have hy1 : py < (y + 1) * bs := by
        simp only [add_mul, one_mul]
        exact h4
      exact lt_of_lt_of_le hy1 (Nat.mul_le_mul_right bs (by omega))
  · rintro ⟨h1, h2⟩
    have hxlt : px / bs < W / bs := by
      rw [Nat.div_lt_iff_lt_mul hbs]
      exact h1
    have hylt : py / bs < Hh / bs := by
      rw [Nat.div_lt_iff_lt_mul hbs]
      exact h2
    have hxmod := Nat.div_add_mod px bs
    have hymod := Nat.div_add_mod py bs
    have hxm : px % bs < bs := Nat.mod_lt px hbs
    have hym : py % bs < bs := Nat.mod_lt py hbs
    refine ⟨(px / bs * bs, py / bs * bs),
      (dissolve_blocks_mem W Hh bs _).mpr ⟨px / bs, hxlt, py / bs, hylt, rfl⟩,
      Nat.div_mul_le_self px bs, ?_, Nat.div_mul_le_self py bs, ?_⟩
    · show px < px / bs * bs + bs
      have hc : px / bs * bs = bs * (px / bs) := Nat.mul_comm _ _
      omega
    · show py < py / bs * bs + bs
      have hc : py / bs * bs = bs * (py / bs) := Nat.mul_comm _ _
      omega

theorem countP_eq_one_of_nodup_mem (l : List (ℕ × ℕ)) (b0 : ℕ × ℕ)
    (hn : l.Nodup) (hm : b0 ∈ l) : l.countP (fun q => decide (q = b0)) = 1 := by
  induction l with
  | nil => cases hm
  | cons a t ih =>
    rw [List.countP_cons]
    rcases List.mem_cons.mp hm with h | h
    · subst h
      have hnt : b0 ∉ t := (List.nodup_cons.mp hn).1
      have hz : t.countP (fun q => decide (q = b0)) = 0 := by
        rw [List.countP_eq_zero]
        intro q hq
        simp only [decide_eq_true_eq]
        intro hqa
        exact hnt (hqa ▸ hq)
      rw [hz]
      simp
    · have hne : a ≠ b0 := by
        intro hab
        exact (List.nodup_cons.mp hn).1 (hab ▸ h)
      rw [ih (List.nodup_cons.mp hn).2 h]
      simp [hne]

theorem dissolve_blocks_nodup (W Hh bs : ℕ) (hbs : 0 < bs) :
    (dissolve_blocks W Hh bs).Nodup := by
  unfold dissolve_blocks
  rw [List.nodup_flatten]
  constructor
  · intro l hl
    obtain ⟨x, hx, rfl⟩ := List.mem_map.mp hl
    refine List.Nodup.map ?_ (List.nodup_range _)
    intro y1 y2 h
    have hyy : y1 * bs = y2 * bs := congrArg Prod.snd h
    exact Nat.eq_of_mul_eq_mul_right hbs hyy
  · rw [List.pairwise_map]
    refine List.Pairwise.imp ?_ (List.pairwise_lt_range _)
    intro x1 x2 hlt a ha1 ha2
    obtain ⟨y1, hy1, rfl⟩ := List.mem_map.mp ha1
    obtain ⟨y2, hy2, heq⟩ := List.mem_map.mp ha2
    have hxx : x2 * bs = x1 * bs := congrArg Prod.fst heq
    have : x2 = x1 := Nat.eq_of_mul_eq_mul_right hbs hxx
    omega

/-- C2 (amended): for every block size bs > 0, every step count N ≥ 1, and
every shuffle of the block grid, the dissolve's step chunks concatenate back
to exactly the shuffled block list — so each block of the blocks_x × blocks_y
partition is replaced exactly once, none duplicated, none omitted — and the
final composited frame equals the incoming frame on every pixel covered by
the partition (hence pixel-for-pixel whenever bs divides the width and the
height) while pixels of the remainder strips keep the outgoing frame. -/
theorem dissolve_blocks_once_and_final_frame (W Hh bs N : ℕ) (hbs : 0 < bs)
    (hN : 1 ≤ N) (perm : List (ℕ × ℕ))
    (hperm : perm.Perm (dissolve_blocks W Hh bs)) (cur nxt : Frame) :
    dissolve_order perm N = perm ∧
    (∀ b0 ∈ dissolve_blocks W Hh bs,
      (dissolve_order perm N).countP (fun q => decide (q = b0)) = 1) ∧
    (∀ px py, dissolve_final cur nxt bs perm N px py =
      if px < W / bs * bs ∧ py < Hh / bs * bs then nxt px py else cur px py) := by
  have horder := dissolve_order_eq perm N hN
  refine ⟨horder, ?_, ?_⟩
  · intro b0 hb0
    rw [horder]
    exact (hperm.countP_eq (fun q => decide (q = b0))).trans
      (countP_eq_one_of_nodup_mem (dissolve_blocks W Hh bs) b0
        (dissolve_blocks_nodup W Hh bs hbs) hb0)
  · intro px py
    rw [dissolve_final_eq, horder, blit_blocks_pixel]
    have hiff : (∃ p ∈ perm, p.1 ≤ px ∧ px < p.1 + bs ∧ p.2 ≤ py ∧ py < p.2 + bs)
        ↔ (px < W / bs * bs ∧ py < Hh / bs * bs) := by
      rw [← dissolve_cover_iff W Hh bs hbs px py]
      constructor
      · rintro ⟨p, hp, hrest⟩
        exact ⟨p, hperm.subset hp, hrest⟩
      · rintro ⟨p, hp, hrest⟩
        exact ⟨p, hperm.mem_iff.mpr hp, hrest⟩
    rw [if_congr hiff rfl rfl]

theorem dissolve_blocks_once_and_final_frame_witness :
    dissolve_final (fun _ _ => 0) (fun _ _ => 1) 4 [(4, 0), (0, 0)] 2 3 3 = 1 := by
  have h := (dissolve_blocks_once_and_final_frame 8 4 4 2 (by decide) (by decide)
    [(4, 0), (0, 0)] (List.Perm.swap (0, 0) (4, 0) []) (fun _ _ => 0)
    (fun _ _ => 1)).2.2 3 3
  rw [if_pos (by decide)] at h
  exact h

/-- C2 counterexample: on a 6 × 4 screen with block size 4, the block grid is
the single block at (0, 0); after a complete one-step dissolve from the
all-0 frame to the all-1 frame, the pixel (4, 0) — inside the screen, but in
the remainder strip right of the grid — still holds the outgoing frame's
value 0, so the final composited frame does not equal the incoming frame
pixel-for-pixel. -/
theorem dissolve_remainder_pixel_not_replaced :
    dissolve_blocks 6 4 4 = [(0, 0)] ∧
    dissolve_final (fun _ _ => 0) (fun _ _ => 1) 4 [(0, 0)] 1 4 0 = 0 ∧
    (4 < 6 ∧ 0 < 4) ∧ ((0 : ℕ) ≠ 1) := by
  refine ⟨by decide, ?_, by decide, by decide⟩
  rfl
